import Mathlib

/-!
Verification development for the codefeed analysis pipeline (`src/index.ts`).

The pipeline's algorithmic core is shallowly embedded here:
JavaScript strings are modelled as `List Char`, the external collaborators
(git, the text-generation providers, `JSON.parse`, the filesystem) are
modelled as explicit inputs, and exceptions are modelled with `Except` /
`Option`.  Every definition mirrors the corresponding function of
`src/index.ts`; doc comments cite the source lines.
-/

/-- JavaScript strings are modelled as lists of characters. -/
abbrev Str := List Char

/-- Embed a Lean string literal into the character-list model. -/
def txt (s : String) : Str := s.toList

/-- JavaScript `hay.includes(pat)`: substring containment. -/
def containsSubstr (hay pat : Str) : Bool := decide (pat <:+: hay)

/-! ### ChangeSetExtractor: `getChangedFiles` (src/index.ts lines 535-546) -/

/-- The noisy-pattern list built in `getChangedFiles`: the two base lockfile
patterns followed by the heuristics' extra ignore patterns (lines 536-540). -/
def noisyPatterns (extraIgnorePatterns : List Str) : List Str :=
  [txt "package-lock.json", txt "yarn.lock"] ++ extraIgnorePatterns

/-- `getChangedFiles(allFiles, extraIgnorePatterns)` (lines 535-546): filters
`allFiles` into `(primaryFiles, noisyFiles)`; a file is noisy when some noisy
pattern occurs in it as a substring (`file.includes(pattern)`). -/
def getChangedFiles (allFiles : List Str) (extraIgnorePatterns : List Str) :
    List Str × List Str :=
  let pats := noisyPatterns extraIgnorePatterns
  (allFiles.filter (fun file => !(pats.any (fun pattern => containsSubstr file pattern))),
   allFiles.filter (fun file => pats.any (fun pattern => containsSubstr file pattern)))

/-! ### ContextChunker: `estimateTokens` and `splitDiffIntoChunks`
    (src/index.ts lines 630-654) -/

/-- `estimateTokens(text)` (lines 630-633): `Math.ceil(text.length / 4)`. -/
def estimateTokens (text : Str) : Nat := (text.length + 3) / 4

/-- JavaScript line terminators, as recognised by `^`, `$` and `.` in a
multiline regex: `\n`, `\r`, U+2028, U+2029. -/
def isLineTerm (c : Char) : Bool := c = '\n' || c = '\r' || c = '\u2028' || c = '\u2029'

/-- The first line of `s`: its characters up to the first line terminator. -/
def lineOf (s : Str) : Str := s.takeWhile (fun c => !isLineTerm c)

/-- Whether a (terminator-free) line matches the hunk-header regex
`^@@.*@@$` used in `splitDiffIntoChunks` (line 637): at least four characters,
starting and ending with `@@`. -/
def isHeaderLine (l : Str) : Bool :=
  decide (4 ≤ l.length) && decide (l.take 2 = txt "@@") && decide (l.drop (l.length - 2) = txt "@@")

/-- Model of `diff.split(/(?=^@@.*@@$)/m)` (line 637): the string is cut
before every hunk-header line (a zero-width lookahead keeps all characters);
the cut after position 0 semantics of `String.prototype.split` (a zero-width
match at the start produces no leading empty piece) is reflected by only
cutting after a line terminator.  `acc` holds the current piece reversed. -/
def splitHunksGo : Str → Str → List Str
  | acc, [] => [acc.reverse]
  | acc, c :: rest =>
    if isLineTerm c && isHeaderLine (lineOf rest) then
      (c :: acc).reverse :: splitHunksGo [] rest
    else
      splitHunksGo (c :: acc) rest

/-- `const hunks = diff.split(/(?=^@@.*@@$)/m)` (line 637). -/
def splitBeforeHeaders (diff : Str) : List Str := splitHunksGo [] diff

/-- The accumulation loop of `splitDiffIntoChunks` (lines 639-653): chunks are
emitted in order; `currentChunk` is flushed before a hunk that would push the
estimated token total over `maxTokens`, and a non-empty trailing chunk is
flushed at the end. -/
def chunkLoop (maxTokens : Nat) : Str → List Str → List Str
  | currentChunk, [] => if currentChunk = [] then [] else [currentChunk]
  | currentChunk, hunk :: rest =>
    if maxTokens < estimateTokens currentChunk + estimateTokens hunk ∧ currentChunk ≠ [] then
      currentChunk :: chunkLoop maxTokens hunk rest
    else
      chunkLoop maxTokens (currentChunk ++ hunk) rest

/-- `splitDiffIntoChunks(diff, maxTokens)` (lines 635-654). -/
def splitDiffIntoChunks (diff : Str) (maxTokens : Nat) : List Str :=
  chunkLoop maxTokens [] (splitBeforeHeaders diff)

/-! ### BatchPlanner: `createSmartBatches` (src/index.ts lines 548-589) -/

/-- One commit of the history handed to `createSmartBatches` and
`updateHeuristics` (shape built by `getCommitHistory`, lines 278-290). -/
structure CommitRecord where
  hash : Str
  message : Str
  files : List Str

/-- `new Set(files)` with JavaScript insertion-order iteration: duplicates are
dropped, first occurrence kept. -/
def jsSetOfList (l : List Str) : List Str :=
  l.foldl (fun acc f => if f ∈ acc then acc else acc ++ [f]) []

/-- First pass of `createSmartBatches` (lines 552-561): for each learned group
in order, the group members still remaining become a batch when more than one
is present, and are removed from the remaining set. -/
def groupPass : List (List Str) → List Str → List (List Str) × List Str
  | [], remaining => ([], remaining)
  | group :: groups, remaining =>
    let batch := group.filter (fun file => decide (file ∈ remaining))
    if 1 < batch.length then
      let rest := groupPass groups (remaining.filter (fun file => decide (file ∉ batch)))
      (batch :: rest.1, rest.2)
    else
      groupPass groups remaining

/-- `commitFileMap` update (lines 567-573): a `Map<string, string[]>` keyed by
commit hash with `push` on the existing entry, modelled as an insertion-ordered
association list. -/
def mapAppend : List (Str × List Str) → Str → Str → List (Str × List Str)
  | [], key, file => [(key, [file])]
  | (k, vs) :: rest, key, file =>
    if k = key then (k, vs ++ [file]) :: rest else (k, vs) :: mapAppend rest key file

/-- Inner loop of the second pass (lines 566-575): each file of a commit that
is still remaining is appended to the commit's map entry and removed from the
remaining set. -/
def addCommitFiles (hash : Str) : List Str → List (Str × List Str) × List Str → List (Str × List Str) × List Str
  | [], st => st
  | file :: files, st =>
    if file ∈ st.2 then
      addCommitFiles hash files (mapAppend st.1 hash file, st.2.filter (fun x => decide (x ≠ file)))
    else
      addCommitFiles hash files st

/-- Outer loop of the second pass of `createSmartBatches` (lines 564-575). -/
def commitPass : List CommitRecord → List (Str × List Str) × List Str → List (Str × List Str) × List Str
  | [], st => st
  | commit :: commits, st => commitPass commits (addCommitFiles commit.hash commit.files st)

/-- `createSmartBatches(files, groups, commitHistory)` (lines 548-589):
group batches, then per-commit batches from the map values (all non-empty by
construction, the `length > 0` guard of line 578 is kept), then one catch-all
batch holding whatever is still remaining. -/
def createSmartBatches (files : List Str) (groups : List (List Str)) (commitHistory : List CommitRecord) : List (List Str) :=
  let gp := groupPass groups (jsSetOfList files)
  let cp := commitPass commitHistory ([], gp.2)
  let batches := gp.1 ++ (cp.1.map Prod.snd).filter (fun commitFiles => decide (0 < commitFiles.length))
  if 0 < cp.2.length then batches ++ [cp.2] else batches

/-! ### HeuristicsEngine: `updateHeuristics` (src/index.ts lines 215-276)

The provider call (`callGeminiApi`), the code-fence stripping and the builtin
`JSON.parse` are external collaborators (spec section 1 and section 6); one
attempt of the retry loop is therefore modelled by its observable outcome:
either the attempt threw (provider transport error or a `JSON.parse` failure)
or it produced a parsed JSON value.  Heuristics values are raw parsed JSON, as
in the source, where both the loaded `oldHeuristics` (line 100) and the value
returned on success (line 262) are unvalidated `JSON.parse` results. -/

/-- Parsed JSON values.  Objects produced by `JSON.parse` have unique keys. -/
inductive Json where
  | null
  | bool (b : Bool)
  | num (n : Int)
  | str (s : Str)
  | arr (elems : List Json)
  | obj (fields : List (Str × Json))

/-- Whether a JSON value is `null` (property access on it would throw). -/
def Json.isNull : Json → Bool
  | .null => true
  | _ => false

/-- JavaScript property access `j.key`: a field of an object, `undefined`
(here `none`) on a missing field or a non-object non-null receiver. -/
def Json.getField : Json → Str → Option Json
  | .obj fields, key => (fields.find? (fun kv => decide (kv.1 = key))).map Prod.snd
  | _, _ => none

/-- `Array.isArray` applied to a possibly-undefined value. -/
def isJsonArray : Option Json → Bool
  | some (.arr _) => true
  | _ => false

/-- The validation of line 261:
`Array.isArray(parsed.ignore_patterns) && Array.isArray(parsed.file_groups)`. -/
def isValidHeuristics (j : Json) : Bool :=
  isJsonArray (j.getField (txt "ignore_patterns")) && isJsonArray (j.getField (txt "file_groups"))

/-- Observable outcome of one attempt of the retry loop: the provider call or
`JSON.parse` threw, or parsing produced a JSON value. -/
inductive AttemptOutcome where
  | thrown
  | parsed (j : Json)

/-- `const MAX_RETRIES = 3` (line 253). -/
def MAX_RETRIES : Nat := 3

/-- The retry loop of `updateHeuristics` (lines 254-275), with `fuel`
iterations left and current attempt number `attempt`.  A thrown attempt
(provider error or parse error) returns the old heuristics at the last
attempt (lines 267-270); a parsed `null` throws on property access and takes
the same path; a parsed value failing validation logs a warning and continues
(line 264); exhausting the loop returns the old heuristics (line 275). -/
def updateHeuristicsLoop (old : Json) (responses : Nat → AttemptOutcome) : Nat → Nat → Json
  | 0, _ => old
  | fuel + 1, attempt =>
    match responses attempt with
    | .thrown =>
      if attempt = MAX_RETRIES then old
      else updateHeuristicsLoop old responses fuel (attempt + 1)
    | .parsed j =>
      if j.isNull then
        (if attempt = MAX_RETRIES then old else updateHeuristicsLoop old responses fuel (attempt + 1))
      else if isValidHeuristics j then j
      else updateHeuristicsLoop old responses fuel (attempt + 1)

/-- `updateHeuristics(model, oldHeuristics, commitHistory)` (lines 215-276):
the loop starts at attempt 1 with `MAX_RETRIES` iterations.  `responses i` is
the outcome of attempt `i`. -/
def updateHeuristics (old : Json) (responses : Nat → AttemptOutcome) : Json :=
  updateHeuristicsLoop old responses MAX_RETRIES 1

/-- An attempt that fails parsing or validation: it threw (not valid JSON),
parsed to `null`, or parsed to a value missing `ignore_patterns` or
`file_groups` as arrays. -/
def attemptFails : AttemptOutcome → Prop
  | .thrown => True
  | .parsed j => j.isNull = true ∨ isValidHeuristics j = false

/-! ### Provider fallback: `isContextLengthError` and `makeApiCall`
    (src/index.ts lines 602-614 and 729-744) -/

/-- The `error.response?.data?.error` payload of an axios error: optional
`code`, and optional `message` (`none` also models a present non-string
message, which the `typeof errorMessage === 'string'` guard rejects). -/
structure AxiosErrorData where
  code : Option Str
  message : Option Str

/-- An error thrown by a provider call: an axios error carrying its payload,
or any other error. -/
inductive JsError where
  | axios (data : AxiosErrorData)
  | other

/-- `isContextLengthError(error)` (lines 602-614). -/
def isContextLengthError : JsError → Bool
  | .axios data =>
    if data.code = some (txt "context_length_exceeded") then true
    else
      match data.message with
      | some msg => containsSubstr msg (txt "token limit")
      | none => false
  | .other => false

/-- Which provider a call went to: the configured primary model or the
fallback model family (lines 730-732). -/
inductive ProviderId where
  | primaryProvider
  | secondaryProvider

/-- `makeApiCall` inside `summarizeChanges` (lines 734-744), instrumented with
the list of provider calls it performs: try the primary provider; if it throws
a context-length error, make exactly one call to the fallback provider with
the identical prompt and return its outcome unchanged; rethrow anything else. -/
def makeApiCall (primaryModelFn fallbackModelFn : Str → Except JsError Str) (prompt : Str) :
    List (ProviderId × Str) × Except JsError Str :=
  match primaryModelFn prompt with
  | .ok response => ([(.primaryProvider, prompt)], .ok response)
  | .error e =>
    if isContextLengthError e then
      ([(.primaryProvider, prompt), (.secondaryProvider, prompt)], fallbackModelFn prompt)
    else
      ([(.primaryProvider, prompt)], .error e)

/-! ### RangeResolver: `getSincePointFromReflog` (src/index.ts lines 293-313)
    and the `from` computation of `runAnalysis` (lines 82-92) -/

/-- `reflog.split('\n')`, accumulator-reversed. -/
def splitOnNlGo : Str → Str → List Str
  | acc, [] => [acc.reverse]
  | acc, c :: rest =>
    if c = '\n' then acc.reverse :: splitOnNlGo [] rest
    else splitOnNlGo (c :: acc) rest

/-- `reflog.split('\n')` (lines 296, 299). -/
def splitOnNl (s : Str) : List Str := splitOnNlGo [] s

/-- A lowercase hexadecimal digit, the character class of `/^([a-f0-9]+)/`. -/
def isHexLowerDigit (c : Char) : Bool := ('a' ≤ c && c ≤ 'f') || ('0' ≤ c && c ≤ '9')

/-- `line.match(/^([a-f0-9]+)/)` (line 303): the non-empty leading run of
lowercase hex digits, or `none` when the line does not start with one. -/
def leadingHex (line : Str) : Option Str :=
  let m := line.takeWhile isHexLowerDigit
  if m = [] then none else some m

/-- `line.includes('pull:')` (lines 296, 300). -/
def lineHasPull (line : Str) : Bool := containsSubstr line (txt "pull:")

/-- `getSincePointFromReflog(branch)` (lines 293-313), as a function of the
reflog text of the remote-tracking ref (`git reflog show origin/<branch>` is
the external git collaborator; its failure is caught and yields `null`, which
this pure model does not need to represent).  Note line 302: `prevLine` is
`lines[pullIndex]` — the pull line itself. -/
def getSincePointFromReflog (reflog : Str) : Option Str :=
  let lines := splitOnNl reflog
  match lines.find? lineHasPull with
  | none => none
  | some _ =>
    match lines.findIdx? lineHasPull with
    | none => none
    | some pullIndex =>
      if 0 < pullIndex then
        match lines.get? pullIndex with
        | some prevLine => leadingHex prevLine
        | none => none
      else none

/-- Modelled from the spec: "`fromRef` = ... detected by scanning the reflog
of the remote-tracking ref for an entry recording a pull/fetch-merge event and
returning the commit immediately preceding it."  The reflog lists entries
newest first, so the commit immediately preceding the most recent pull entry
is the hash recorded on the next line (the ref position before that pull). -/
def specSincePointFromReflog (reflog : Str) : Option Str :=
  let lines := splitOnNl reflog
  match lines.findIdx? lineHasPull with
  | none => none
  | some pullIndex => (lines.get? (pullIndex + 1)).bind leadingHex

/-- The `from` computation of `runAnalysis` (lines 85-92):
`sincePoint && sincePoint !== to ? sincePoint : ''`, and an empty `from`
makes the run baseline-establishing (`continue`, modelled as `none`): the
branch is skipped, no fallback range is computed. -/
def resolveFromRef (sincePoint : Option Str) (toRef : Str) : Option Str :=
  match sincePoint with
  | some s => if s ≠ toRef ∧ s ≠ [] then some s else none
  | none => none

/-! ### AnalysisCache / ReportStore (src/index.ts lines 114-134 and 197-212)

The analyses directory is modelled as the list of its successfully parsed
report files, in directory order. -/

/-- One per-file summary (`FileSummary`, lines 33-37). -/
structure FileSummary where
  file : Str
  summary : Str
  diff : Option Str

/-- One branch's analysis (`BranchSummary`, lines 44-51); `from`/`to` are
named `fromRef`/`toRef` because `from` is a Lean keyword. -/
structure BranchSummary where
  branch : Str
  highLevelSummary : Str
  summaries : List FileSummary
  noisyChanges : List Str
  fromRef : Str
  toRef : Str

/-- A persisted report (`AnalysisReport`, lines 53-57). -/
structure AnalysisReport where
  id : Str
  createdAt : Str
  branches : List BranchSummary

/-- The existence check of `runAnalysis` (lines 115-134): some stored report
contains a branch analysis with exactly the triple
`(branch, from, to)` (line 122). -/
def analysisExistsFor (reports : List AnalysisReport) (branch fromRef toRef : Str) : Bool :=
  reports.any (fun report =>
    report.branches.any (fun b =>
      decide (b.branch = branch) && decide (b.fromRef = fromRef) && decide (b.toRef = toRef)))

/-- `save`: writing the new report as a fresh timestamp-keyed file
(lines 197-212) appends it to the store; existing reports are not touched. -/
def saveReport (reports : List AnalysisReport) (report : AnalysisReport) : List AnalysisReport :=
  reports ++ [report]

/-! ### Final reduce: `createFinalSummary` (src/index.ts lines 705-727) -/

/-- JavaScript `Array.prototype.join(sep)`. -/
def joinWith (sep : Str) : List Str → Str
  | [] => []
  | [x] => x
  | x :: xs => x ++ sep ++ joinWith sep xs

/-- The prompt built by `createFinalSummary` (lines 706-716):
`combinedSummaries` is the `\n\n`-join of the `File: ...\nSummary: ...`
renderings, spliced into the template literal. -/
def finalSummaryPrompt (summaries : List FileSummary) (branchName : Str) : Str :=
  let combinedSummaries := joinWith (txt "\n\n")
    (summaries.map (fun s => txt "File: " ++ s.file ++ txt "\nSummary: " ++ s.summary))
  txt "\n        The following are file summaries for a large number of changes in the \"" ++
    branchName ++
    txt "\" branch.\n        Please synthesize these into a single, coherent, high-level summary of the overall changes.\n        Focus on the main themes and the overall story of the changes.\n\n        File Summaries:\n        ---\n        " ++
    combinedSummaries ++
    txt "\n        ---\n    "

/-- The static fallback narrative of line 725. -/
def finalSummaryFallbackText : Str := txt "Could not generate a final high-level summary."

/-- `createFinalSummary(model, summaries, branchName)` (lines 705-727):
one call to `callGeminiApi`; its thrown error is caught and replaced by the
static fallback narrative, so the function always returns a string. -/
def createFinalSummary (callGeminiApi : Str → Str → Except JsError Str) (model : Str)
    (summaries : List FileSummary) (branchName : Str) : Str :=
  match callGeminiApi model (finalSummaryPrompt summaries branchName) with
  | .ok response => response
  | .error _ => finalSummaryFallbackText

/-! ### Proof-auxiliary definitions -/

/-- All files stored across the values of the `commitFileMap` model. -/
def MapFiles (m : List (Str × List Str)) : List Str := (m.map Prod.snd).flatten

/-- Invariant of the second pass of `createSmartBatches`: the map holds no
duplicate file, map files and remaining files are disjoint, and together they
are exactly the files that were remaining when the pass started. -/
def StInv (start : List Str) (st : List (Str × List Str) × List Str) : Prop :=
  (MapFiles st.1).Nodup ∧
  (∀ x ∈ MapFiles st.1, x ∉ st.2) ∧
  (∀ x, (x ∈ MapFiles st.1 ∨ x ∈ st.2) ↔ x ∈ start)

/-- Prepend `cur` onto the first element of a list of chunk texts (or make it
the only chunk): relates a chunking run started with a non-empty accumulator
to the groups of hunks it emits. -/
def prependJoin (cur : Str) : List Str → List Str
  | [] => [cur]
  | j :: js => (cur ++ j) :: js

/-- Prepend one hunk into the first group of a grouping (or open a group). -/
def consIntoHead (x : Str) : List (List Str) → List (List Str)
  | [] => [[x]]
  | g :: gs => (x :: g) :: gs

/-! ## Theorems -/

/-! ### C8: noisy/primary classification -/

/-- Characterization of `getChangedFiles`: a path lands in the noisy list iff
some noisy pattern is a substring of it, in the primary list iff none is. -/
theorem getChangedFiles_partition (allFiles extraIgnorePatterns : List Str) :
    (∀ f, f ∈ (getChangedFiles allFiles extraIgnorePatterns).2 ↔
        f ∈ allFiles ∧ ∃ p ∈ noisyPatterns extraIgnorePatterns, p <:+: f) ∧
    (∀ f, f ∈ (getChangedFiles allFiles extraIgnorePatterns).1 ↔
        f ∈ allFiles ∧ ¬ ∃ p ∈ noisyPatterns extraIgnorePatterns, p <:+: f) ∧
    (∀ f ∈ allFiles,
        (f ∈ (getChangedFiles allFiles extraIgnorePatterns).1 ∧
          f ∉ (getChangedFiles allFiles extraIgnorePatterns).2) ∨
        (f ∈ (getChangedFiles allFiles extraIgnorePatterns).2 ∧
          f ∉ (getChangedFiles allFiles extraIgnorePatterns).1)) := by
  have hnoisy : ∀ f, f ∈ (getChangedFiles allFiles extraIgnorePatterns).2 ↔
      f ∈ allFiles ∧ ∃ p ∈ noisyPatterns extraIgnorePatterns, p <:+: f := by
    intro f
    simp [getChangedFiles, containsSubstr, List.mem_filter, List.any_eq_true]
  have hprim : ∀ f, f ∈ (getChangedFiles allFiles extraIgnorePatterns).1 ↔
      f ∈ allFiles ∧ ¬ ∃ p ∈ noisyPatterns extraIgnorePatterns, p <:+: f := by
    intro f
    simp [getChangedFiles, containsSubstr, List.mem_filter, List.any_eq_true]
  refine ⟨hnoisy, hprim, ?_⟩
  intro f hf
  by_cases hp : ∃ p ∈ noisyPatterns extraIgnorePatterns, p <:+: f
  · exact Or.inr ⟨(hnoisy f).mpr ⟨hf, hp⟩, fun hmem => ((hprim f).mp hmem).2 hp⟩
  · exact Or.inl ⟨(hprim f).mpr ⟨hf, hp⟩, fun hmem => hp ((hnoisy f).mp hmem).2⟩

/-- C8: getChangedFiles classifies a path as noisy iff it contains a base or
extra ignore pattern as a substring; every other path is primary, and every
input path appears in exactly one of the two output lists. -/
theorem C8_getChangedFiles_classification (allFiles extraIgnorePatterns : List Str) :
    (∀ f, f ∈ (getChangedFiles allFiles extraIgnorePatterns).2 ↔
        f ∈ allFiles ∧ ∃ p ∈ noisyPatterns extraIgnorePatterns, p <:+: f) ∧
    (∀ f, f ∈ (getChangedFiles allFiles extraIgnorePatterns).1 ↔
        f ∈ allFiles ∧ ¬ ∃ p ∈ noisyPatterns extraIgnorePatterns, p <:+: f) ∧
    (∀ f ∈ allFiles,
        (f ∈ (getChangedFiles allFiles extraIgnorePatterns).1 ∧
          f ∉ (getChangedFiles allFiles extraIgnorePatterns).2) ∨
        (f ∈ (getChangedFiles allFiles extraIgnorePatterns).2 ∧
          f ∉ (getChangedFiles allFiles extraIgnorePatterns).1)) :=
  getChangedFiles_partition allFiles extraIgnorePatterns

/-- C8 witness: the lockfile is noisy, the source file is primary, on a
concrete input. -/
theorem C8_witness :
    txt "yarn.lock" ∈ (getChangedFiles [txt "src/a.ts", txt "yarn.lock"] []).2 :=
  ((C8_getChangedFiles_classification [txt "src/a.ts", txt "yarn.lock"] []).1
    (txt "yarn.lock")).mpr (by decide)

/-! ### C6: report store -/

/-- C6: the existence check is true exactly when some stored report contains a
BranchAnalysis with the identical (branch, from, to) triple, and it is true
immediately after `save` persists a report containing that triple. -/
theorem C6_exists_iff_stored_and_after_save (reports : List AnalysisReport)
    (report : AnalysisReport) (branch fromRef toRef : Str) :
    (analysisExistsFor reports branch fromRef toRef = true ↔
      ∃ r ∈ reports, ∃ b ∈ r.branches,
        b.branch = branch ∧ b.fromRef = fromRef ∧ b.toRef = toRef) ∧
    ((∃ b ∈ report.branches, b.branch = branch ∧ b.fromRef = fromRef ∧ b.toRef = toRef) →
      analysisExistsFor (saveReport reports report) branch fromRef toRef = true) := by
  have hchar : ∀ rs : List AnalysisReport, analysisExistsFor rs branch fromRef toRef = true ↔
      ∃ r ∈ rs, ∃ b ∈ r.branches,
        b.branch = branch ∧ b.fromRef = fromRef ∧ b.toRef = toRef := by
    intro rs
    simp [analysisExistsFor, List.any_eq_true, Bool.and_eq_true, decide_eq_true_eq, and_assoc]
  exact ⟨hchar reports, fun h =>
    (hchar (saveReport reports report)).mpr ⟨report, by simp [saveReport], h⟩⟩

/-- C6 witness: saving a report with a concrete triple makes the existence
check answer true for that triple. -/
theorem C6_witness :
    analysisExistsFor
      (saveReport [] ⟨txt "id", txt "t", [⟨txt "main", txt "s", [], [], txt "a1", txt "b2"⟩]⟩)
      (txt "main") (txt "a1") (txt "b2") = true :=
  (C6_exists_iff_stored_and_after_save []
      ⟨txt "id", txt "t", [⟨txt "main", txt "s", [], [], txt "a1", txt "b2"⟩]⟩
      (txt "main") (txt "a1") (txt "b2")).2
    ⟨⟨txt "main", txt "s", [], [], txt "a1", txt "b2"⟩, by simp, rfl, rfl, rfl⟩

/-! ### C9: final reduce fallback -/

/-- C9: createFinalSummary never propagates a provider failure: on an error it
returns the fixed static fallback narrative, on success the provider's
response; it is a total function either way. -/
theorem C9_createFinalSummary_never_throws (callApi : Str → Str → Except JsError Str)
    (model : Str) (summaries : List FileSummary) (branchName : Str) :
    (∀ e, callApi model (finalSummaryPrompt summaries branchName) = .error e →
      createFinalSummary callApi model summaries branchName = finalSummaryFallbackText) ∧
    (∀ r, callApi model (finalSummaryPrompt summaries branchName) = .ok r →
      createFinalSummary callApi model summaries branchName = r) := by
  constructor <;> intro x h <;> simp [createFinalSummary, h]

/-- C9 witness: a provider that always fails yields the static fallback. -/
theorem C9_witness :
    createFinalSummary (fun _ _ => Except.error JsError.other) (txt "gemini-2.5-flash") []
      (txt "main") = finalSummaryFallbackText :=
  (C9_createFinalSummary_never_throws (fun _ _ => Except.error JsError.other)
    (txt "gemini-2.5-flash") [] (txt "main")).1 JsError.other rfl

/-! ### C4: provider fallback on context-length errors -/

/-- C4: when the primary provider fails with a context-length error, exactly
one further call is made, to the secondary provider with the identical prompt,
and its outcome is returned unchanged (no additional retry); any failure that
is not a context-length error propagates after the single primary call. -/
theorem C4_makeApiCall_fallback (primaryModelFn fallbackModelFn : Str → Except JsError Str)
    (prompt : Str) (e : JsError) (h : primaryModelFn prompt = .error e) :
    (isContextLengthError e = true →
      makeApiCall primaryModelFn fallbackModelFn prompt =
        ([(ProviderId.primaryProvider, prompt), (ProviderId.secondaryProvider, prompt)],
          fallbackModelFn prompt)) ∧
    (isContextLengthError e = false →
      makeApiCall primaryModelFn fallbackModelFn prompt =
        ([(ProviderId.primaryProvider, prompt)], Except.error e)) := by
  constructor <;> intro hce <;> simp [makeApiCall, h, hce]

/-- C4 witness: a primary provider failing with `context_length_exceeded`
triggers exactly one secondary call with the identical prompt. -/
theorem C4_witness :
    makeApiCall (fun _ => Except.error (JsError.axios ⟨some (txt "context_length_exceeded"), none⟩))
      (fun _ => Except.ok (txt "summary")) (txt "prompt") =
    ([(ProviderId.primaryProvider, txt "prompt"), (ProviderId.secondaryProvider, txt "prompt")],
      Except.ok (txt "summary")) :=
  (C4_makeApiCall_fallback _ _ (txt "prompt")
    (JsError.axios ⟨some (txt "context_length_exceeded"), none⟩) rfl).1 (by decide)

/-! ### C3 and C10: heuristics update -/

/-- One failing non-final attempt moves the retry loop to the next attempt. -/
theorem updateHeuristicsLoop_fail_step (old : Json) (responses : Nat → AttemptOutcome)
    (fuel attempt : Nat) (hf : attemptFails (responses attempt)) (hne : attempt ≠ MAX_RETRIES) :
    updateHeuristicsLoop old responses (fuel + 1) attempt =
      updateHeuristicsLoop old responses fuel (attempt + 1) := by
  rcases hr : responses attempt with _ | j
  · simp [updateHeuristicsLoop, hr, hne]
  · rw [hr] at hf
    rcases hf with hnull | hinvalid
    · simp [updateHeuristicsLoop, hr, hnull, hne]
    · by_cases hnull : j.isNull = true
      · simp [updateHeuristicsLoop, hr, hnull, hne]
      · simp [updateHeuristicsLoop, hr, hnull, hinvalid]

/-- A failing final attempt returns the old heuristics. -/
theorem updateHeuristicsLoop_fail_last (old : Json) (responses : Nat → AttemptOutcome)
    (hf : attemptFails (responses MAX_RETRIES)) :
    updateHeuristicsLoop old responses 1 MAX_RETRIES = old := by
  rcases hr : responses MAX_RETRIES with _ | j
  · simp [updateHeuristicsLoop, hr]
  · rw [hr] at hf
    rcases hf with hnull | hinvalid
    · simp [updateHeuristicsLoop, hr, hnull]
    · by_cases hnull : j.isNull = true
      · simp [updateHeuristicsLoop, hr, hnull]
      · simp [updateHeuristicsLoop, hr, hnull, hinvalid]

/-- A valid parse of a non-null value is returned immediately. -/
theorem updateHeuristicsLoop_success (old : Json) (responses : Nat → AttemptOutcome)
    (fuel attempt : Nat) (j : Json) (hr : responses attempt = .parsed j)
    (hvalid : isValidHeuristics j = true) :
    updateHeuristicsLoop old responses (fuel + 1) attempt = j := by
  have hnull : j.isNull = false := by
    cases j <;> simp [Json.isNull] <;> simp [isValidHeuristics, Json.getField, isJsonArray] at hvalid
  simp [updateHeuristicsLoop, hr, hnull, hvalid]

/-- C3: when every one of the 3 attempts fails parsing or validation, the
previous heuristics value is returned exactly — nothing is dropped and no
exception escapes (the model is a total function). -/
theorem C3_updateHeuristics_failsafe (old : Json) (responses : Nat → AttemptOutcome)
    (h : ∀ i, 1 ≤ i → i ≤ MAX_RETRIES → attemptFails (responses i)) :
    updateHeuristics old responses = old := by
  have h1 := h 1 (by omega) (by simp [MAX_RETRIES])
  have h2 := h 2 (by omega) (by simp [MAX_RETRIES])
  have h3 := h 3 (by omega) (by simp [MAX_RETRIES])
  show updateHeuristicsLoop old responses MAX_RETRIES 1 = old
  rw [show MAX_RETRIES = 2 + 1 from rfl,
    updateHeuristicsLoop_fail_step old responses 2 1 h1 (by simp [MAX_RETRIES]),
    show (2 : Nat) = 1 + 1 from rfl,
    updateHeuristicsLoop_fail_step old responses 1 2 h2 (by simp [MAX_RETRIES])]
  exact updateHeuristicsLoop_fail_last old responses h3

/-- C3 witness: three thrown attempts leave a concrete heuristics object
unchanged. -/
theorem C3_witness :
    updateHeuristics (Json.obj [(txt "ignore_patterns", Json.arr [Json.str (txt "dist/")])])
      (fun _ => AttemptOutcome.thrown) =
    Json.obj [(txt "ignore_patterns", Json.arr [Json.str (txt "dist/")])] :=
  C3_updateHeuristics_failsafe _ _ (fun i _ _ => by simp [attemptFails])

/-- C10: a first-attempt response that parses as JSON with both
`ignore_patterns` and `file_groups` present as arrays — or any such response
whose earlier attempts all failed — is returned exactly as parsed, with no
merge with the previous heuristics (the result does not depend on `old`). -/
theorem C10_updateHeuristics_returns_parsed (old : Json) (responses : Nat → AttemptOutcome)
    (j : Json) (k : Nat) (hk1 : 1 ≤ k) (hk3 : k ≤ MAX_RETRIES)
    (hfail : ∀ i, 1 ≤ i → i < k → attemptFails (responses i))
    (hresp : responses k = .parsed j) (hvalid : isValidHeuristics j = true) :
    updateHeuristics old responses = j := by
  show updateHeuristicsLoop old responses MAX_RETRIES 1 = j
  have hk : k = 1 ∨ k = 2 ∨ k = 3 := by
    rw [MAX_RETRIES] at hk3; omega
  rcases hk with rfl | rfl | rfl
  · exact updateHeuristicsLoop_success old responses 2 1 j hresp hvalid
  · rw [show MAX_RETRIES = 2 + 1 from rfl,
      updateHeuristicsLoop_fail_step old responses 2 1 (hfail 1 (by omega) (by omega))
        (by simp [MAX_RETRIES])]
    exact updateHeuristicsLoop_success old responses 1 2 j hresp hvalid
  · rw [show MAX_RETRIES = 2 + 1 from rfl,
      updateHeuristicsLoop_fail_step old responses 2 1 (hfail 1 (by omega) (by omega))
        (by simp [MAX_RETRIES]),
      show (2 : Nat) = 1 + 1 from rfl,
      updateHeuristicsLoop_fail_step old responses 1 2 (hfail 2 (by omega) (by omega))
        (by simp [MAX_RETRIES])]
    exact updateHeuristicsLoop_success old responses 0 3 j hresp hvalid

/-- C10 witness: a valid first response replaces a non-empty previous
heuristics object wholesale — the previously learned pattern is dropped. -/
theorem C10_witness :
    updateHeuristics (Json.obj [(txt "ignore_patterns", Json.arr [Json.str (txt "dist/")])])
      (fun _ => AttemptOutcome.parsed
        (Json.obj [(txt "ignore_patterns", Json.arr []), (txt "file_groups", Json.arr [])])) =
    Json.obj [(txt "ignore_patterns", Json.arr []), (txt "file_groups", Json.arr [])] :=
  C10_updateHeuristics_returns_parsed _ _ _ 1 (by omega) (by simp [MAX_RETRIES])
    (fun i h1 h2 => absurd (lt_of_le_of_lt h1 h2) (lt_irrefl 1)) rfl (by decide)

/-! ### C2 and C7: the diff chunker -/

/-- The hunk split loses no characters: the pieces concatenate back to the
accumulator followed by the unprocessed input. -/
theorem splitHunksGo_flatten : ∀ (s acc : Str), (splitHunksGo acc s).flatten = acc.reverse ++ s := by
  intro s
  induction s with
  | nil => intro acc; simp [splitHunksGo]
  | cons c rest ih =>
    intro acc
    by_cases hc : (isLineTerm c && isHeaderLine (lineOf rest)) = true
    · simp [splitHunksGo, hc, ih]
    · simp [splitHunksGo, hc, ih]

/-- The chunk loop loses no characters. -/
theorem chunkLoop_flatten (maxTokens : Nat) : ∀ (hunks : List Str) (cur : Str),
    (chunkLoop maxTokens cur hunks).flatten = cur ++ hunks.flatten := by
  intro hunks
  induction hunks with
  | nil => intro cur; by_cases h : cur = [] <;> simp [chunkLoop, h]
  | cons hunk rest ih =>
    intro cur
    by_cases h : (maxTokens < estimateTokens cur + estimateTokens hunk ∧ cur ≠ [])
    · simp [chunkLoop, h, ih]
    · simp [chunkLoop, h, ih]

theorem consIntoHead_flatten (x : Str) (gs : List (List Str)) :
    (consIntoHead x gs).flatten = x :: gs.flatten := by
  cases gs <;> simp [consIntoHead]

theorem consIntoHead_map_flatten (x : Str) (gs : List (List Str)) :
    (consIntoHead x gs).map List.flatten = prependJoin x (gs.map List.flatten) := by
  cases gs <;> simp [consIntoHead, prependJoin]

theorem prependJoin_prependJoin (a b : Str) (js : List Str) :
    prependJoin a (prependJoin b js) = prependJoin (a ++ b) js := by
  cases js <;> simp [prependJoin]

/-- The chunks produced from accumulator `cur` are exactly the non-empty
concatenations of a consecutive grouping of the hunks, the first prefixed by
`cur`: chunk boundaries only ever fall between hunks. -/
theorem chunkLoop_grouping (maxTokens : Nat) : ∀ (hunks : List Str) (cur : Str),
    ∃ groups : List (List Str), groups.flatten = hunks ∧
      chunkLoop maxTokens cur hunks =
        (prependJoin cur (groups.map List.flatten)).filter (fun c => decide (c ≠ [])) := by
  intro hunks
  induction hunks with
  | nil =>
    intro cur
    refine ⟨[], rfl, ?_⟩
    by_cases h : cur = [] <;> simp [chunkLoop, prependJoin, h]
  | cons hunk rest ih =>
    intro cur
    by_cases hp : (maxTokens < estimateTokens cur + estimateTokens hunk ∧ cur ≠ [])
    · obtain ⟨gr, hgr, hrec⟩ := ih hunk
      refine ⟨[] :: consIntoHead hunk gr, by simp [consIntoHead_flatten, hgr], ?_⟩
      rw [show chunkLoop maxTokens cur (hunk :: rest) = cur :: chunkLoop maxTokens hunk rest from by
        simp [chunkLoop, hp]]
      rw [hrec]
      simp only [List.map_cons, List.flatten_nil, consIntoHead_map_flatten]
      simp [prependJoin, List.filter_cons, hp.2]
    · obtain ⟨gr, hgr, hrec⟩ := ih (cur ++ hunk)
      refine ⟨consIntoHead hunk gr, by simp [consIntoHead_flatten, hgr], ?_⟩
      rw [show chunkLoop maxTokens cur (hunk :: rest) = chunkLoop maxTokens (cur ++ hunk) rest from by
        simp [chunkLoop, hp]]
      rw [hrec, consIntoHead_map_flatten, prependJoin_prependJoin]

/-- The length estimate is subadditive over concatenation. -/
theorem estimateTokens_append (a b : Str) :
    estimateTokens (a ++ b) ≤ estimateTokens a + estimateTokens b := by
  simp only [estimateTokens, List.length_append]
  omega

/-- Every chunk either fits the budget or is one single (oversized) hunk. -/
theorem chunkLoop_budget (maxTokens : Nat) (H : List Str) : ∀ (hunks : List Str) (cur : Str),
    (∀ h ∈ hunks, h ∈ H) → (estimateTokens cur ≤ maxTokens ∨ cur ∈ H) →
    ∀ c ∈ chunkLoop maxTokens cur hunks, estimateTokens c ≤ maxTokens ∨ c ∈ H := by
  intro hunks
  induction hunks with
  | nil =>
    intro cur _ hcur c hc
    by_cases h : cur = []
    · simp [chunkLoop, h] at hc
    · simp [chunkLoop, h] at hc
      rw [hc]
      exact hcur
  | cons hunk rest ih =>
    intro cur hsub hcur c hc
    by_cases hp : (maxTokens < estimateTokens cur + estimateTokens hunk ∧ cur ≠ [])
    · rw [show chunkLoop maxTokens cur (hunk :: rest) = cur :: chunkLoop maxTokens hunk rest from by
        simp [chunkLoop, hp]] at hc
      rcases List.mem_cons.mp hc with rfl | hc'
      · exact hcur
      · exact ih hunk (fun h hh => hsub h (List.mem_cons_of_mem _ hh))
          (Or.inr (hsub hunk (List.mem_cons_self _ _))) c hc'
    · rw [show chunkLoop maxTokens cur (hunk :: rest) = chunkLoop maxTokens (cur ++ hunk) rest from by
        simp [chunkLoop, hp]] at hc
      have hnew : estimateTokens (cur ++ hunk) ≤ maxTokens ∨ (cur ++ hunk) ∈ H := by
        rcases not_and_or.mp hp with hle | hnil
        · have h1 := estimateTokens_append cur hunk
          exact Or.inl (by omega)
        · have h0 : cur = [] := not_not.mp hnil
          rw [h0]
          exact Or.inr (by simpa using hsub hunk (List.mem_cons_self _ _))
      exact ih (cur ++ hunk) (fun h hh => hsub h (List.mem_cons_of_mem _ hh)) hnew c hc

/-- An accumulator already over the budget is flushed as a chunk of its own. -/
theorem chunkLoop_self_mem (maxTokens : Nat) (cur : Str) (h : maxTokens < estimateTokens cur) :
    ∀ rest, cur ∈ chunkLoop maxTokens cur rest := by
  have hne : cur ≠ [] := by
    intro e
    rw [e] at h
    simp [estimateTokens] at h
  intro rest
  cases rest with
  | nil => simp [chunkLoop, hne]
  | cons h2 r2 =>
    have hcond : maxTokens < estimateTokens cur + estimateTokens h2 ∧ cur ≠ [] :=
      ⟨lt_of_lt_of_le h (Nat.le_add_right _ _), hne⟩
    simp [chunkLoop, hcond]

/-- A hunk whose own estimate exceeds the budget becomes a chunk by itself. -/
theorem chunkLoop_oversized_mem (maxTokens : Nat) : ∀ (hunks : List Str) (cur h : Str),
    h ∈ hunks → maxTokens < estimateTokens h → h ∈ chunkLoop maxTokens cur hunks := by
  intro hunks
  induction hunks with
  | nil => intro cur h hmem _; exact absurd hmem (List.not_mem_nil _)
  | cons h1 rest ih =>
    intro cur h hmem hover
    rcases List.mem_cons.mp hmem with rfl | hmem'
    · by_cases hp : (maxTokens < estimateTokens cur + estimateTokens h ∧ cur ≠ [])
      · rw [show chunkLoop maxTokens cur (h :: rest) = cur :: chunkLoop maxTokens h rest from by
          simp [chunkLoop, hp]]
        exact List.mem_cons_of_mem _ (chunkLoop_self_mem maxTokens h hover rest)
      · have hnil : cur = [] := by
          rcases not_and_or.mp hp with hle | hnil
          · exfalso
            omega
          · exact not_not.mp hnil
        rw [show chunkLoop maxTokens cur (h :: rest) = chunkLoop maxTokens (cur ++ h) rest from by
          simp [chunkLoop, hp]]
        rw [hnil]
        simpa using chunkLoop_self_mem maxTokens h hover rest
    · by_cases hp : (maxTokens < estimateTokens cur + estimateTokens h1 ∧ cur ≠ [])
      · rw [show chunkLoop maxTokens cur (h1 :: rest) = cur :: chunkLoop maxTokens h1 rest from by
          simp [chunkLoop, hp]]
        exact List.mem_cons_of_mem _ (ih h1 h hmem' hover)
      · rw [show chunkLoop maxTokens cur (h1 :: rest) = chunkLoop maxTokens (cur ++ h1) rest from by
          simp [chunkLoop, hp]]
        exact ih (cur ++ h1) h hmem' hover

theorem splitHunksGo_ne_nil : ∀ (s acc : Str), splitHunksGo acc s ≠ [] := by
  intro s
  induction s with
  | nil => intro acc; simp [splitHunksGo]
  | cons c rest ih =>
    intro acc
    by_cases hc : (isLineTerm c && isHeaderLine (lineOf rest)) = true
    · simp [splitHunksGo, hc]
    · rw [show splitHunksGo acc (c :: rest) = splitHunksGo (c :: acc) rest from by
        simp [splitHunksGo, hc]]
      exact ih (c :: acc)

/-- Starting the split with accumulator `acc` only prefixes the first piece. -/
theorem splitHunksGo_modifyHead : ∀ (s acc : Str),
    splitHunksGo acc s = (splitHunksGo [] s).modifyHead (fun p => acc.reverse ++ p) := by
  intro s
  induction s with
  | nil => intro acc; simp [splitHunksGo]
  | cons c rest ih =>
    intro acc
    by_cases hc : (isLineTerm c && isHeaderLine (lineOf rest)) = true
    · simp [splitHunksGo, hc, List.modifyHead]
    · rw [show splitHunksGo acc (c :: rest) = splitHunksGo (c :: acc) rest from by
          simp [splitHunksGo, hc],
        show splitHunksGo [] (c :: rest) = splitHunksGo [c] rest from by
          simp [splitHunksGo, hc]]
      rw [ih (c :: acc), ih [c]]
      cases hX : splitHunksGo [] rest with
      | nil => rfl
      | cons hd tl => simp [List.modifyHead]

/-- The first line of the first piece is the first line of the input. -/
theorem splitHunksGo_headD_lineOf : ∀ s : Str,
    lineOf ((splitHunksGo [] s).headD []) = lineOf s := by
  intro s
  induction s with
  | nil => simp [splitHunksGo, lineOf]
  | cons c rest ih =>
    by_cases hc : (isLineTerm c && isHeaderLine (lineOf rest)) = true
    · have hterm : isLineTerm c = true := by
        have hc2 := hc
        rw [Bool.and_eq_true] at hc2
        exact hc2.1
      rw [show splitHunksGo [] (c :: rest) = [c] :: splitHunksGo [] rest from by
        simp [splitHunksGo, hc]]
      simp [lineOf, List.takeWhile, hterm]
    · rw [show splitHunksGo [] (c :: rest) = splitHunksGo [c] rest from by
          simp [splitHunksGo, hc],
        splitHunksGo_modifyHead rest [c]]
      obtain ⟨hd, tl, hX⟩ := List.exists_cons_of_ne_nil (splitHunksGo_ne_nil rest [])
      rw [hX]
      rw [hX] at ih
      simp only [List.modifyHead, List.headD_cons, List.reverse_cons, List.reverse_nil,
        List.nil_append] at ih ⊢
      by_cases hterm : isLineTerm c = true
      · simp [lineOf, List.takeWhile, hterm]
      · simp only [lineOf, List.singleton_append, List.takeWhile_cons, hterm,
          Bool.not_false, if_true] at ih ⊢
        simp [ih]

/-- Every piece after the first starts with a hunk-header line. -/
theorem splitHunksGo_tail_header : ∀ (s acc : Str),
    ∀ p ∈ (splitHunksGo acc s).tail, isHeaderLine (lineOf p) = true := by
  intro s
  induction s with
  | nil => intro acc p hp; simp [splitHunksGo] at hp
  | cons c rest ih =>
    intro acc p hp
    by_cases hc : (isLineTerm c && isHeaderLine (lineOf rest)) = true
    · rw [show splitHunksGo acc (c :: rest) = (c :: acc).reverse :: splitHunksGo [] rest from by
        simp [splitHunksGo, hc]] at hp
      simp only [List.tail_cons] at hp
      obtain ⟨hd, tl, hX⟩ := List.exists_cons_of_ne_nil (splitHunksGo_ne_nil rest [])
      rw [hX] at hp
      rcases List.mem_cons.mp hp with rfl | hp'
      · have hhd := splitHunksGo_headD_lineOf rest
        rw [hX] at hhd
        simp only [List.headD_cons] at hhd
        rw [hhd]
        have hc2 := hc
        rw [Bool.and_eq_true] at hc2
        exact hc2.2
      · have htl := ih []
        rw [hX] at htl
        exact htl p (by simpa using hp')
    · rw [show splitHunksGo acc (c :: rest) = splitHunksGo (c :: acc) rest from by
        simp [splitHunksGo, hc]] at hp
      exact ih (c :: acc) p hp

/-- C2: the chunks concatenate back, in order, to the original diff text, and
chunk boundaries only fall at hunk boundaries: the chunk list is the list of
non-empty concatenations of a consecutive grouping of the hunk pieces, and
every hunk piece after the first begins with a hunk-header line. -/
theorem C2_splitDiffIntoChunks_concat (diff : Str) (maxTokens : Nat) (hpos : 0 < maxTokens) :
    (splitDiffIntoChunks diff maxTokens).flatten = diff ∧
    (∃ groups : List (List Str), groups.flatten = splitBeforeHeaders diff ∧
      splitDiffIntoChunks diff maxTokens =
        (groups.map List.flatten).filter (fun c => decide (c ≠ []))) ∧
    (∀ piece ∈ (splitBeforeHeaders diff).tail, isHeaderLine (lineOf piece) = true) := by
  refine ⟨?_, ?_, ?_⟩
  · rw [splitDiffIntoChunks, chunkLoop_flatten]
    simp [splitBeforeHeaders, splitHunksGo_flatten]
  · obtain ⟨gr, hgr, hrec⟩ := chunkLoop_grouping maxTokens (splitBeforeHeaders diff) []
    refine ⟨gr, hgr, ?_⟩
    rw [splitDiffIntoChunks, hrec]
    cases hmap : gr.map List.flatten with
    | nil => simp [prependJoin]
    | cons j js => simp [prependJoin]
  · have := splitHunksGo_tail_header diff []
    simpa [splitBeforeHeaders] using this

/-- C2 witness. -/
theorem C2_witness :
    0 < 4 ∧ (splitDiffIntoChunks (txt "line1\n@@ -1 +1 @@\npatch body") 4).flatten =
      txt "line1\n@@ -1 +1 @@\npatch body" :=
  ⟨by decide,
    (C2_splitDiffIntoChunks_concat (txt "line1\n@@ -1 +1 @@\npatch body") 4 (by decide)).1⟩

/-- C7: chunks accumulate whole hunks (the grouping conjunct); every chunk's
estimate fits the budget except a chunk that is a single oversized hunk; and
an oversized hunk is always emitted as a chunk by itself. -/
theorem C7_splitDiffIntoChunks_budget (diff : Str) (maxTokens : Nat) :
    (∃ groups : List (List Str), groups.flatten = splitBeforeHeaders diff ∧
      splitDiffIntoChunks diff maxTokens =
        (groups.map List.flatten).filter (fun c => decide (c ≠ []))) ∧
    (∀ chunk ∈ splitDiffIntoChunks diff maxTokens,
      estimateTokens chunk ≤ maxTokens ∨ chunk ∈ splitBeforeHeaders diff) ∧
    (∀ hunk ∈ splitBeforeHeaders diff, maxTokens < estimateTokens hunk →
      hunk ∈ splitDiffIntoChunks diff maxTokens) := by
  refine ⟨?_, ?_, ?_⟩
  · obtain ⟨gr, hgr, hrec⟩ := chunkLoop_grouping maxTokens (splitBeforeHeaders diff) []
    refine ⟨gr, hgr, ?_⟩
    rw [splitDiffIntoChunks, hrec]
    cases hmap : gr.map List.flatten with
    | nil => simp [prependJoin]
    | cons j js => simp [prependJoin]
  · intro chunk hc
    exact chunkLoop_budget maxTokens (splitBeforeHeaders diff) (splitBeforeHeaders diff) []
      (fun h hh => hh) (Or.inl (by simp [estimateTokens])) chunk hc
  · intro hunk hh hover
    exact chunkLoop_oversized_mem maxTokens (splitBeforeHeaders diff) [] hunk hh hover

/-- C7 witness. -/
theorem C7_witness :
    estimateTokens (txt "x") ≤ 100 ∨ txt "x" ∈ splitBeforeHeaders (txt "x") :=
  (C7_splitDiffIntoChunks_budget (txt "x") 100).2.1 (txt "x") (by decide)

/-! ### C5: range resolution from the reflog -/

/-- C5 counterexample: on a reflog whose most recent pull entry is the middle
line, the code returns the hash recorded on the pull line itself (`bbb222`,
the post-pull position), not the hash of the entry immediately preceding the
pull event (`ccc333`) that the claim specifies; and no fallback chain runs. -/
theorem C5_counterexample :
    getSincePointFromReflog
        (txt "aaa111 push to branch\nbbb222 pull: fast forward\nccc333 commit message") =
      some (txt "bbb222") ∧
    specSincePointFromReflog
        (txt "aaa111 push to branch\nbbb222 pull: fast forward\nccc333 commit message") =
      some (txt "ccc333") ∧
    getSincePointFromReflog
        (txt "aaa111 push to branch\nbbb222 pull: fast forward\nccc333 commit message") ≠
      specSincePointFromReflog
        (txt "aaa111 push to branch\nbbb222 pull: fast forward\nccc333 commit message") :=
  ⟨by decide, by decide, by decide⟩

/-- C5 (amended): the resolver's since-point is the leading hex hash of the
most recent reflog line containing `pull:` itself, and only when that line is
not the newest reflog entry; otherwise (no pull line, or the pull line is the
newest entry) it is `null`, and `runAnalysis` then treats the run as
baseline-establishing and skips the branch — no fallback chain is applied. -/
theorem C5_amended_sincePoint (reflog toRef : Str) :
    (match (splitOnNl reflog).findIdx? lineHasPull with
     | none => getSincePointFromReflog reflog = none
     | some 0 => getSincePointFromReflog reflog = none
     | some (i + 1) =>
        getSincePointFromReflog reflog = ((splitOnNl reflog).get? (i + 1)).bind leadingHex) ∧
    (getSincePointFromReflog reflog = none →
      resolveFromRef (getSincePointFromReflog reflog) toRef = none) := by
  constructor
  · cases hidx : (splitOnNl reflog).findIdx? lineHasPull with
    | none =>
      have hfind : (splitOnNl reflog).find? lineHasPull = none := by
        rw [List.find?_eq_none]
        intro x hx
        rw [List.findIdx?_eq_none_iff] at hidx
        simpa using hidx x hx
      simp [getSincePointFromReflog, hfind]
    | some i =>
      have hfind : (splitOnNl reflog).find? lineHasPull ≠ none := by
        intro hnone
        rw [List.find?_eq_none] at hnone
        have hno : (splitOnNl reflog).findIdx? lineHasPull = none := by
          rw [List.findIdx?_eq_none_iff]
          intro x hx
          simpa using hnone x hx
        rw [hno] at hidx
        exact Option.noConfusion hidx
      obtain ⟨w, hw⟩ := Option.ne_none_iff_exists'.mp hfind
      cases i with
      | zero => simp [getSincePointFromReflog, hw, hidx]
      | succ n =>
        simp only [getSincePointFromReflog, hw, hidx]
        rw [if_pos (Nat.succ_pos n)]
        cases hget : (splitOnNl reflog).get? (n + 1) <;> simp [hget]
  · intro h
    rw [h]
    rfl

/-- C5 witness (for the amended claim): on a reflog with no pull entry the
resolver yields `null` and the branch resolution is the baseline skip. -/
theorem C5_witness :
    resolveFromRef (getSincePointFromReflog (txt "aaa111 push to branch")) (txt "headhash") =
      none :=
  (C5_amended_sincePoint (txt "aaa111 push to branch") (txt "headhash")).2 (by decide)

/-! ### C1: createSmartBatches partitions the primary files -/

theorem jsSetOfList_mem_aux (l : List Str) : ∀ (acc : List Str) (x : Str),
    (x ∈ l.foldl (fun acc f => if f ∈ acc then acc else acc ++ [f]) acc) ↔ x ∈ acc ∨ x ∈ l := by
  induction l with
  | nil => intro acc x; simp
  | cons f fs ih =>
    intro acc x
    rw [List.foldl_cons, ih]
    by_cases hf : f ∈ acc
    · rw [if_pos hf]
      constructor
      · rintro (h | h)
        · exact Or.inl h
        · exact Or.inr (List.mem_cons_of_mem _ h)
      · rintro (h | h)
        · exact Or.inl h
        · rcases List.mem_cons.mp h with rfl | h'
          · exact Or.inl hf
          · exact Or.inr h'
    · rw [if_neg hf]
      simp [List.mem_append, or_assoc]

/-- Membership in the JavaScript `Set` model is membership in the list. -/
theorem jsSetOfList_mem (l : List Str) (x : Str) : x ∈ jsSetOfList l ↔ x ∈ l := by
  rw [jsSetOfList, jsSetOfList_mem_aux]
  simp

theorem groupPass_cons_pos (group : List Str) (groups : List (List Str)) (remaining : List Str)
    (h : 1 < (group.filter (fun file => decide (file ∈ remaining))).length) :
    groupPass (group :: groups) remaining =
      ((group.filter (fun file => decide (file ∈ remaining))) ::
        (groupPass groups (remaining.filter (fun file =>
          decide (file ∉ group.filter (fun file => decide (file ∈ remaining)))))).1,
       (groupPass groups (remaining.filter (fun file =>
          decide (file ∉ group.filter (fun file => decide (file ∈ remaining)))))).2) := by
  simp only [groupPass]
  rw [if_pos h]

theorem groupPass_cons_neg (group : List Str) (groups : List (List Str)) (remaining : List Str)
    (h : ¬ 1 < (group.filter (fun file => decide (file ∈ remaining))).length) :
    groupPass (group :: groups) remaining = groupPass groups remaining := by
  simp only [groupPass]
  rw [if_neg h]

/-- Invariants of the first pass: batches draw only from the remaining set,
what stays remaining was remaining before, everything remaining ends up
remaining or in exactly one batch, batches are pairwise disjoint, and each
batch is disjoint from what stays remaining. -/
theorem groupPass_spec (groups : List (List Str)) : ∀ remaining : List Str,
    (∀ x ∈ (groupPass groups remaining).2, x ∈ remaining) ∧
    (∀ b ∈ (groupPass groups remaining).1, ∀ x ∈ b, x ∈ remaining) ∧
    (∀ x ∈ remaining,
      x ∈ (groupPass groups remaining).2 ∨ ∃ b ∈ (groupPass groups remaining).1, x ∈ b) ∧
    ((groupPass groups remaining).1.Pairwise List.Disjoint) ∧
    (∀ b ∈ (groupPass groups remaining).1, List.Disjoint b (groupPass groups remaining).2) := by
  induction groups with
  | nil =>
    intro remaining
    refine ⟨fun x hx => by simpa [groupPass] using hx, ?_, ?_, ?_, ?_⟩
    · intro b hb; simp [groupPass] at hb
    · intro x hx; exact Or.inl (by simpa [groupPass] using hx)
    · simp [groupPass]
    · intro b hb; simp [groupPass] at hb
  | cons group groups ih =>
    intro remaining
    by_cases hlen : 1 < (group.filter (fun file => decide (file ∈ remaining))).length
    · rw [groupPass_cons_pos group groups remaining hlen]
      obtain ⟨ih1, ih2, ih3, ih4, ih5⟩ := ih (remaining.filter (fun file =>
        decide (file ∉ group.filter (fun file => decide (file ∈ remaining)))))
      have hx_batch : ∀ x, x ∈ group.filter (fun file => decide (file ∈ remaining)) ↔
          x ∈ group ∧ x ∈ remaining := by
        intro x; simp only [List.mem_filter, decide_eq_true_eq]
      have hx_rem : ∀ x, x ∈ remaining.filter (fun file =>
          decide (file ∉ group.filter (fun file => decide (file ∈ remaining)))) ↔
          x ∈ remaining ∧ x ∉ group.filter (fun file => decide (file ∈ remaining)) := by
        intro x; simp only [List.mem_filter, decide_eq_true_eq]
      refine ⟨?_, ?_, ?_, ?_, ?_⟩
      · intro x hx
        exact ((hx_rem x).mp (ih1 x hx)).1
      · intro b hb x hx
        rcases List.mem_cons.mp hb with rfl | hb'
        · exact ((hx_batch x).mp hx).2
        · exact ((hx_rem x).mp (ih2 b hb' x hx)).1
      · intro x hx
        by_cases hxb : x ∈ group.filter (fun file => decide (file ∈ remaining))
        · exact Or.inr ⟨_, List.mem_cons_self _ _, hxb⟩
        · rcases ih3 x ((hx_rem x).mpr ⟨hx, hxb⟩) with h | ⟨b, hb, hxb'⟩
          · exact Or.inl h
          · exact Or.inr ⟨b, List.mem_cons_of_mem _ hb, hxb'⟩
      · rw [List.pairwise_cons]
        refine ⟨?_, ih4⟩
        intro b hb x hxa hxb
        exact ((hx_rem x).mp (ih2 b hb x hxb)).2 hxa
      · intro b hb
        rcases List.mem_cons.mp hb with rfl | hb'
        · intro x hxa hxr
          exact ((hx_rem x).mp (ih1 x hxr)).2 hxa
        · exact ih5 b hb'
    · rw [groupPass_cons_neg group groups remaining hlen]
      exact ih remaining

/-- Appending a file to the commit map permutes the collected files with the
new file in front. -/
theorem mapAppend_MapFiles_perm (m : List (Str × List Str)) (key file : Str) :
    List.Perm (MapFiles (mapAppend m key file)) (file :: MapFiles m) := by
  induction m with
  | nil =>
    simp only [mapAppend, MapFiles, List.map_cons, List.map_nil, List.flatten_cons,
      List.flatten_nil, List.append_nil]
    exact List.Perm.refl _
  | cons kv rest ih =>
    obtain ⟨k, vs⟩ := kv
    by_cases hk : k = key
    · rw [show mapAppend ((k, vs) :: rest) key file = (k, vs ++ [file]) :: rest from by
        simp [mapAppend, hk]]
      simp only [MapFiles, List.map_cons, List.flatten_cons]
      rw [List.append_assoc]
      exact List.perm_middle
    · rw [show mapAppend ((k, vs) :: rest) key file = (k, vs) :: mapAppend rest key file from by
        simp [mapAppend, hk]]
      simp only [MapFiles, List.map_cons, List.flatten_cons]
      exact (List.Perm.append_left vs ih).trans List.perm_middle

theorem mapAppend_MapFiles_mem (m : List (Str × List Str)) (key file x : Str) :
    x ∈ MapFiles (mapAppend m key file) ↔ x = file ∨ x ∈ MapFiles m := by
  rw [(mapAppend_MapFiles_perm m key file).mem_iff]
  simp

/-- The inner loop of the commit pass preserves the invariant. -/
theorem addCommitFiles_inv (hash : Str) : ∀ (files : List Str)
    (st : List (Str × List Str) × List Str) (start : List Str),
    StInv start st → StInv start (addCommitFiles hash files st) := by
  intro files
  induction files with
  | nil => intro st start h; simpa [addCommitFiles] using h
  | cons file fs ih =>
    intro st start h
    obtain ⟨m, rem⟩ := st
    by_cases hf : file ∈ rem
    · rw [show addCommitFiles hash (file :: fs) (m, rem) =
          addCommitFiles hash fs (mapAppend m hash file, rem.filter (fun x => decide (x ≠ file)))
        from by simp [addCommitFiles, hf]]
      apply ih
      simp only [StInv] at h ⊢
      obtain ⟨hnd, hdisj, hcov⟩ := h
      refine ⟨?_, ?_, ?_⟩
      · rw [(mapAppend_MapFiles_perm m hash file).nodup_iff]
        exact List.nodup_cons.mpr ⟨fun hm => hdisj file hm hf, hnd⟩
      · intro x hx hx2
        rw [mapAppend_MapFiles_mem] at hx
        simp only [List.mem_filter, decide_eq_true_eq] at hx2
        rcases hx with rfl | hx
        · exact hx2.2 rfl
        · exact hdisj x hx hx2.1
      · intro x
        rw [mapAppend_MapFiles_mem]
        simp only [List.mem_filter, decide_eq_true_eq]
        constructor
        · rintro ((rfl | hx) | ⟨hxr, _⟩)
          · exact (hcov x).mp (Or.inr hf)
          · exact (hcov x).mp (Or.inl hx)
          · exact (hcov x).mp (Or.inr hxr)
        · intro hx
          rcases (hcov x).mpr hx with hx1 | hx2
          · exact Or.inl (Or.inr hx1)
          · by_cases hxf : x = file
            · exact Or.inl (Or.inl hxf)
            · exact Or.inr ⟨hx2, hxf⟩
    · rw [show addCommitFiles hash (file :: fs) (m, rem) = addCommitFiles hash fs (m, rem)
        from by simp [addCommitFiles, hf]]
      exact ih (m, rem) start h

/-- The commit pass preserves the invariant. -/
theorem commitPass_inv : ∀ (commits : List CommitRecord)
    (st : List (Str × List Str) × List Str) (start : List Str),
    StInv start st → StInv start (commitPass commits st) := by
  intro commits
  induction commits with
  | nil => intro st start h; simpa [commitPass] using h
  | cons c cs ih =>
    intro st start h
    rw [show commitPass (c :: cs) st = commitPass cs (addCommitFiles c.hash c.files st) from rfl]
    exact ih _ _ (addCommitFiles_inv c.hash c.files st start h)

/-- C1: the batches returned by createSmartBatches have pairwise disjoint
file sets and their union is exactly the input primary-file set. -/
theorem C1_createSmartBatches_partition (files : List Str) (groups : List (List Str))
    (commitHistory : List CommitRecord) :
    (∀ f, (∃ b ∈ createSmartBatches files groups commitHistory, f ∈ b) ↔ f ∈ files) ∧
    (createSmartBatches files groups commitHistory).Pairwise List.Disjoint := by
  obtain ⟨gp1, gp2, gp3, gp4, gp5⟩ := groupPass_spec groups (jsSetOfList files)
  have hinv0 : StInv (groupPass groups (jsSetOfList files)).2
      ([], (groupPass groups (jsSetOfList files)).2) := by
    simp only [StInv, MapFiles]
    exact ⟨by simp, by simp, fun x => by simp⟩
  have hinv := commitPass_inv commitHistory _ _ hinv0
  simp only [StInv] at hinv
  obtain ⟨hnd, hdisj, hcov⟩ := hinv
  have hcb_mem : ∀ b ∈ ((commitPass commitHistory ([], (groupPass groups (jsSetOfList files)).2)).1.map
        Prod.snd).filter (fun commitFiles => decide (0 < commitFiles.length)),
      ∀ x ∈ b, x ∈ MapFiles (commitPass commitHistory
        ([], (groupPass groups (jsSetOfList files)).2)).1 := by
    intro b hb x hx
    have hb' := List.mem_of_mem_filter hb
    exact List.mem_flatten.mpr ⟨b, hb', hx⟩
  have hcb_cover : ∀ x ∈ MapFiles (commitPass commitHistory
        ([], (groupPass groups (jsSetOfList files)).2)).1,
      ∃ b ∈ ((commitPass commitHistory ([], (groupPass groups (jsSetOfList files)).2)).1.map
        Prod.snd).filter (fun commitFiles => decide (0 < commitFiles.length)), x ∈ b := by
    intro x hx
    obtain ⟨b, hb, hxb⟩ := List.mem_flatten.mp hx
    refine ⟨b, List.mem_filter.mpr ⟨hb, ?_⟩, hxb⟩
    simp only [decide_eq_true_eq]
    exact List.length_pos.mpr (List.ne_nil_of_mem hxb)
  have hpw_cb : (((commitPass commitHistory ([], (groupPass groups (jsSetOfList files)).2)).1.map
      Prod.snd).filter (fun commitFiles => decide (0 < commitFiles.length))).Pairwise
      List.Disjoint := by
    have hfl := List.nodup_flatten.mp hnd
    exact hfl.2.sublist (List.filter_sublist _)
  constructor
  · intro f
    simp only [createSmartBatches]
    by_cases hrem :
      0 < (commitPass commitHistory ([], (groupPass groups (jsSetOfList files)).2)).2.length
    · rw [if_pos hrem]
      constructor
      · rintro ⟨b, hb, hfb⟩
        rcases List.mem_append.mp hb with hb' | hb2
        · rcases List.mem_append.mp hb' with hbg | hbc
          · exact (jsSetOfList_mem files f).mp (gp2 b hbg f hfb)
          · have hf1 := hcb_mem b hbc f hfb
            exact (jsSetOfList_mem files f).mp (gp1 f ((hcov f).mp (Or.inl hf1)))
        · have hbe := List.mem_singleton.mp hb2
          rw [hbe] at hfb
          exact (jsSetOfList_mem files f).mp (gp1 f ((hcov f).mp (Or.inr hfb)))
      · intro hf
        have hf0 := (jsSetOfList_mem files f).mpr hf
        rcases gp3 f hf0 with hf2 | ⟨b, hb, hfb⟩
        · rcases (hcov f).mpr hf2 with hfm | hfr
          · obtain ⟨b, hb, hfb⟩ := hcb_cover f hfm
            exact ⟨b, List.mem_append.mpr (Or.inl (List.mem_append.mpr (Or.inr hb))), hfb⟩
          · exact ⟨_, List.mem_append.mpr (Or.inr (List.mem_singleton.mpr rfl)), hfr⟩
        · exact ⟨b, List.mem_append.mpr (Or.inl (List.mem_append.mpr (Or.inl hb))), hfb⟩
    · rw [if_neg hrem]
      have hnil : (commitPass commitHistory ([], (groupPass groups (jsSetOfList files)).2)).2 = [] :=
        List.length_eq_zero.mp (Nat.eq_zero_of_not_pos hrem)
      constructor
      · rintro ⟨b, hb, hfb⟩
        rcases List.mem_append.mp hb with hbg | hbc
        · exact (jsSetOfList_mem files f).mp (gp2 b hbg f hfb)
        · have hf1 := hcb_mem b hbc f hfb
          exact (jsSetOfList_mem files f).mp (gp1 f ((hcov f).mp (Or.inl hf1)))
      · intro hf
        have hf0 := (jsSetOfList_mem files f).mpr hf
        rcases gp3 f hf0 with hf2 | ⟨b, hb, hfb⟩
        · rcases (hcov f).mpr hf2 with hfm | hfr
          · obtain ⟨b, hb, hfb⟩ := hcb_cover f hfm
            exact ⟨b, List.mem_append.mpr (Or.inr hb), hfb⟩
          · rw [hnil] at hfr
            cases hfr
        · exact ⟨b, List.mem_append.mpr (Or.inl hb), hfb⟩
  · simp only [createSmartBatches]
    by_cases hrem :
      0 < (commitPass commitHistory ([], (groupPass groups (jsSetOfList files)).2)).2.length
    · rw [if_pos hrem]
      rw [List.pairwise_append]
      refine ⟨?_, by simp, ?_⟩
      · rw [List.pairwise_append]
        refine ⟨gp4, hpw_cb, ?_⟩
        intro a ha b hb x hxa hxb
        exact gp5 a ha hxa ((hcov x).mp (Or.inl (hcb_mem b hb x hxb)))
      · intro a ha b hb x hxa hxb
        have hbe := List.mem_singleton.mp hb
        rw [hbe] at hxb
        rcases List.mem_append.mp ha with hag | hac
        · exact gp5 a hag hxa ((hcov x).mp (Or.inr hxb))
        · exact hdisj x (hcb_mem a hac x hxa) hxb
    · rw [if_neg hrem]
      rw [List.pairwise_append]
      refine ⟨gp4, hpw_cb, ?_⟩
      intro a ha b hb x hxa hxb
      exact gp5 a ha hxa ((hcov x).mp (Or.inl (hcb_mem b hb x hxb)))

/-- C1 witness: on a concrete input every primary file is covered by a
batch. -/
theorem C1_witness :
    ∃ b ∈ createSmartBatches [txt "a.ts", txt "b.ts"] [] [], txt "a.ts" ∈ b :=
  ((C1_createSmartBatches_partition [txt "a.ts", txt "b.ts"] [] []).1 (txt "a.ts")).mpr
    (by decide)
